import Mathlib

/-!
Verification of the `lstest` benchmark (src/main.cpp): three mutual-exclusion
variants (`ResourceAtomicSpin`, `ResourceAtomicFlag`, `ResourceMutex`) guard a
shared turn-taking counter; `worker` loops on `inc` until the counter reaches a
target; `execSync` spawns `max_threads` workers and joins them.

The embedding has two levels of granularity:

* the protected region of each variant's `inc` (read, modulo turn check,
  conditional increment, copy, return) as a pure function returning
  (new value of `val`, returned copy `ret`), plus an interleaving run model
  where each call to the region executes atomically — this is the semantics
  the flag and mutex variants actually provide;
* a fine-grained lock-level automaton for `ResourceAtomicSpin::inc`, where the
  compare-and-swap of the acquire loop is a separate atomic step, used to
  analyse the spin-lock acquire code itself.

Machine integers: `val` starts at 0 and only ever increments by 1, and all
thread counts and targets in scope are tiny, so `int` arithmetic never
overflows and is modelled by `Nat`; C++ `%` on nonnegative operands agrees
with `Nat.mod`.
-/

namespace LsTest

/-- Protected region of `ResourceAtomicSpin::inc` (src/main.cpp lines 27-29, 33):
`if (val % max_threads == thread_num) val++; int ret = val; return ret;`.
Result is `(new val, ret)`. -/
def ResourceAtomicSpin.inc (max_threads thread_num val : Nat) : Nat × Nat :=
  let val1 := if val % max_threads == thread_num then val + 1 else val
  let ret := val1
  (val1, ret)

/-- Protected region of `ResourceAtomicFlag::inc` (src/main.cpp lines 46-48, 52):
identical statements to the spin variant. Result is `(new val, ret)`. -/
def ResourceAtomicFlag.inc (max_threads thread_num val : Nat) : Nat × Nat :=
  let val1 := if val % max_threads == thread_num then val + 1 else val
  let ret := val1
  (val1, ret)

/-- Protected region of `ResourceMutex::inc` (src/main.cpp lines 64-66, 69):
identical statements to the spin variant. Result is `(new val, ret)`. -/
def ResourceMutex.inc (max_threads thread_num val : Nat) : Nat × Nat :=
  let val1 := if val % max_threads == thread_num then val + 1 else val
  let ret := val1
  (val1, ret)

/-- Default target count, `max_count_dflt` in `main` (src/main.cpp line 104). -/
def max_count_dflt : Nat := 1000000

/-- How `main` obtains `max_count` from the optional command-line argument
(src/main.cpp lines 111-118).  `arg` is the outcome of `std::stoi(argv[1])`:
`some v` when `stoi` returns the value `v`, `none` when it throws (non-numeric
argument or out-of-range), which the `catch (...)` turns into the default.  A
parsed negative value is replaced by the default by the conditional on
line 114. -/
def mainMaxCount (arg : Option Int) : Int :=
  match arg with
  | none => (max_count_dflt : Int)
  | some v => if v < 0 then (max_count_dflt : Int) else v

/-!
### Lock-level model of `ResourceAtomicSpin::inc`

The acquire loop (src/main.cpp lines 23-25) is
`do { expect = 0; } while (spin_lock.compare_exchange_weak(expect, 1, ...));`.
`compare_exchange_weak(expect, 1)` atomically compares `spin_lock` with
`expect` (0): on success it stores 1 and returns `true`; on failure it loads
the current value into `expect` and returns `false`.  The `do`/`while`
repeats while the condition is `true`, i.e. while the compare-and-swap
SUCCEEDS, and falls through to the protected region when it FAILS.  Each loop
iteration is one atomic step of the automaton below; the protected region
plus the release store (lines 27-31) is a second atomic step (making the
whole region one step only makes it harder to exhibit two threads inside it
at once, so this granularity is conservative for the mutual-exclusion
analysis; the acquire loop is modelled exactly).
-/

/-- Control location of one thread inside `ResourceAtomicSpin::inc`:
still in the acquire loop, inside the protected region (lines 26-29), or
returned (after the release store on line 31). -/
inductive SpinLoc where
  | acq : SpinLoc
  | crit : SpinLoc
  | done : SpinLoc
deriving DecidableEq

/-- Shared state of a `ResourceAtomicSpin` instance together with the control
location of each of `n` threads currently executing `inc`.  `lock` is the
`spin_lock` cell (0 = free, 1 = held), `val` the shared counter. -/
structure SpinState (n : Nat) where
  lock : Nat
  val : Nat
  loc : Fin n → SpinLoc

/-- One atomic step of thread `i` in the lock-level model of
`ResourceAtomicSpin::inc` (with `max_threads = n`, `thread_num = i`):

* at `acq`, one iteration of the `do`/`while`: if `spin_lock = 0` the
  compare-and-swap succeeds (stores 1, returns `true`) and the loop repeats;
  otherwise it fails (returns `false`) and control falls through into the
  protected region;
* at `crit`, the protected region runs and the release store resets
  `spin_lock` to 0 (lines 27-31);
* a returned thread does nothing. -/
def ResourceAtomicSpin.lockStep (n : Nat) (s : SpinState n) (i : Fin n) :
    SpinState n :=
  match s.loc i with
  | SpinLoc.acq =>
      if s.lock = 0 then
        ⟨1, s.val, s.loc⟩
      else
        ⟨s.lock, s.val, fun j => if j = i then SpinLoc.crit else s.loc j⟩
  | SpinLoc.crit =>
      ⟨0, (ResourceAtomicSpin.inc n i.val s.val).1,
       fun j => if j = i then SpinLoc.done else s.loc j⟩
  | SpinLoc.done => s

/-- Initial lock-level state: `val = 0` (line 18), the lock cell free, and
every thread about to execute the acquire loop. -/
def spinInit (n : Nat) : SpinState n := ⟨0, 0, fun _ => SpinLoc.acq⟩

/-!
### Run model

`worker` (src/main.cpp lines 75-77) is
`while (r.inc(max_threads, thread_num) < max_count);` — the worker keeps
calling `inc` while the returned copy is below `max_count` and returns the
first time it is not.  `execSync` (lines 81-100) spawns workers with the
distinct indices `0 .. max_threads - 1` on one shared resource and joins them
all.  A run is modelled as an interleaving of atomically executed protected
regions: the state holds the shared `val` and the set `act` of workers whose
loops have not yet exited; a schedule says which worker's call executes next
(a scheduled worker that has already returned does nothing).  `body` is the
protected region of the chosen variant. -/

structure RunState (n : Nat) where
  val : Nat
  act : Finset (Fin n)
deriving DecidableEq

/-- State at the start of `execSync`: counter 0, all workers in their loops. -/
def initState (n : Nat) : RunState n := ⟨0, Finset.univ⟩

/-- One scheduled call: if worker `i` is still in its loop, its call to the
variant's protected region `body max_threads i val` executes atomically; the
worker leaves its loop exactly when the returned copy is not `< max_count`. -/
def step (body : Nat → Nat → Nat → Nat × Nat) (max_threads max_count : Nat)
    (s : RunState max_threads) (i : Fin max_threads) : RunState max_threads :=
  if i ∈ s.act then
    ⟨(body max_threads i.val s.val).1,
     if (body max_threads i.val s.val).2 < max_count then s.act
     else s.act.erase i⟩
  else s

/-- Run a finite schedule of calls. -/
def runList (body : Nat → Nat → Nat → Nat × Nat) (max_threads max_count : Nat)
    (s : RunState max_threads) (l : List (Fin max_threads)) :
    RunState max_threads :=
  List.foldl (step body max_threads max_count) s l

/-- State after the first `m` calls of an infinite schedule `σ`. -/
def runTo (body : Nat → Nat → Nat → Nat × Nat) (max_threads max_count : Nat)
    (σ : ℕ → Fin max_threads) : ℕ → RunState max_threads
  | 0 => initState max_threads
  | m + 1 => step body max_threads max_count
      (runTo body max_threads max_count σ m) (σ m)

/-- A fair schedule: every worker index is scheduled again after any point in
time (real OS threads keep running until they return). -/
def Fair {n : Nat} (σ : ℕ → Fin n) : Prop :=
  ∀ (i : Fin n) (m : ℕ), ∃ k, m ≤ k ∧ σ k = i

/-- The round-robin schedule used for concrete completed runs. -/
def rrSched (n : Nat) (hn : 0 < n) (steps : Nat) : List (Fin n) :=
  (List.range steps).map fun k => ⟨k % n, Nat.mod_lt k hn⟩

/-- The round-robin completed run for `totalThreads = 4`,
`targetCount = 100`: 103 calls, call `k` made by worker `k mod 4`. -/
def sched103 : List (Fin 4) := rrSched 4 (Nat.succ_pos 3) 103

/-!
### Theorems
-/

theorem flag_inc_eq_spin_inc : ResourceAtomicFlag.inc = ResourceAtomicSpin.inc := rfl

theorem mutex_inc_eq_spin_inc : ResourceMutex.inc = ResourceAtomicSpin.inc := rfl

/-- C3: for `totalThreads > 0` and `myIndex < totalThreads`, each of the three
variants' protected regions increments the shared value by exactly 1 when
`val % totalThreads = myIndex` and leaves it unchanged otherwise, and in both
cases returns a copy of the (possibly just-updated) value. -/
theorem inc_turn_spec (max_threads thread_num val : Nat)
    (hn : 0 < max_threads) (hi : thread_num < max_threads) :
    (val % max_threads = thread_num →
      ResourceAtomicSpin.inc max_threads thread_num val = (val + 1, val + 1) ∧
      ResourceAtomicFlag.inc max_threads thread_num val = (val + 1, val + 1) ∧
      ResourceMutex.inc max_threads thread_num val = (val + 1, val + 1)) ∧
    (val % max_threads ≠ thread_num →
      ResourceAtomicSpin.inc max_threads thread_num val = (val, val) ∧
      ResourceAtomicFlag.inc max_threads thread_num val = (val, val) ∧
      ResourceMutex.inc max_threads thread_num val = (val, val)) := by
  constructor <;> intro h <;>
    refine ⟨?_, ?_, ?_⟩ <;>
    simp [ResourceAtomicSpin.inc, ResourceAtomicFlag.inc, ResourceMutex.inc, h]

theorem inc_turn_spec_witness :
    ResourceAtomicSpin.inc 4 3 3 = (4, 4) ∧ ResourceMutex.inc 4 1 3 = (3, 3) :=
  ⟨((inc_turn_spec 4 3 3 (by decide) (by decide)).1 (by decide)).1,
   ((inc_turn_spec 4 1 3 (by decide) (by decide)).2 (by decide)).2.2⟩

/-- C9: a target-count argument on which `stoi` throws (non-numeric), or one
that parses to a negative value, is replaced by the default 1000000; a valid
non-negative value is used as given. Parsing never fails: `mainMaxCount` is
total, so no error is surfaced to the caller. -/
theorem main_arg_recovery :
    mainMaxCount none = 1000000 ∧
    (∀ v : Int, v < 0 → mainMaxCount (some v) = 1000000) ∧
    (∀ v : Int, 0 ≤ v → mainMaxCount (some v) = v) := by
  refine ⟨rfl, fun v hv => ?_, fun v hv => ?_⟩ <;>
    simp [mainMaxCount, max_count_dflt, hv, not_lt.mpr hv]

theorem main_arg_recovery_witness :
    mainMaxCount none = 1000000 ∧ mainMaxCount (some (-7)) = 1000000 ∧
    mainMaxCount (some 42) = 42 :=
  ⟨main_arg_recovery.1, main_arg_recovery.2.1 (-7) (by decide),
   main_arg_recovery.2.2 42 (by decide)⟩

/-- C1: the acquire loop of `ResourceAtomicSpin::inc` behaves opposite to the
claim.  With the lock held (`spin_lock = 1`), the compare-and-swap FAILS and
the thread nevertheless falls out of the loop and enters the protected
region; with the lock free (`spin_lock = 0`), the compare-and-swap SUCCEEDS
(the free-to-held transition happens) and the thread RETRIES the loop
instead of entering.  The `while` condition lacks a negation. -/
theorem spin_acquire_inverted :
    ((ResourceAtomicSpin.lockStep 2 ⟨1, 5, fun _ => SpinLoc.acq⟩ 0).loc 0
        = SpinLoc.crit ∧
      (ResourceAtomicSpin.lockStep 2 ⟨1, 5, fun _ => SpinLoc.acq⟩ 0).lock = 1) ∧
    ((ResourceAtomicSpin.lockStep 2 ⟨0, 5, fun _ => SpinLoc.acq⟩ 0).loc 0
        = SpinLoc.acq ∧
      (ResourceAtomicSpin.lockStep 2 ⟨0, 5, fun _ => SpinLoc.acq⟩ 0).lock = 1) := by
  decide

/-- C2: mutual exclusion fails for `ResourceAtomicSpin`.  From the initial
state, the interleaving "thread 0 runs one CAS iteration (succeeds, lock
becomes 1, loop repeats); thread 0 runs the next iteration (CAS fails, falls
into the region); thread 1 runs one iteration (CAS fails, also falls into the
region)" puts both threads inside the protected region at the same instant. -/
theorem spin_mutual_exclusion_violated :
    (ResourceAtomicSpin.lockStep 2
        (ResourceAtomicSpin.lockStep 2
          (ResourceAtomicSpin.lockStep 2 (spinInit 2) 0) 0) 1).loc 0
      = SpinLoc.crit ∧
    (ResourceAtomicSpin.lockStep 2
        (ResourceAtomicSpin.lockStep 2
          (ResourceAtomicSpin.lockStep 2 (spinInit 2) 0) 0) 1).loc 1
      = SpinLoc.crit := by
  decide

theorem spin_inc_fst_eq_snd (a b c : Nat) :
    (ResourceAtomicSpin.inc a b c).2 = (ResourceAtomicSpin.inc a b c).1 := rfl

theorem spin_inc_cases (a b c : Nat) :
    (c % a = b ∧ ResourceAtomicSpin.inc a b c = (c + 1, c + 1)) ∨
    (c % a ≠ b ∧ ResourceAtomicSpin.inc a b c = (c, c)) := by
  by_cases h : c % a = b
  · exact Or.inl ⟨h, by simp [ResourceAtomicSpin.inc, h]⟩
  · exact Or.inr ⟨h, by simp [ResourceAtomicSpin.inc, h]⟩

theorem spin_inc_val_ge (a b c : Nat) : c ≤ (ResourceAtomicSpin.inc a b c).1 := by
  rcases spin_inc_cases a b c with ⟨_, he⟩ | ⟨_, he⟩ <;> rw [he] <;>
    exact Nat.le_succ c

theorem spin_inc_val_le (a b c : Nat) :
    (ResourceAtomicSpin.inc a b c).1 ≤ c + 1 := by
  rcases spin_inc_cases a b c with ⟨_, he⟩ | ⟨_, he⟩ <;> rw [he] <;>
    exact Nat.le_succ c

theorem step_cases (body : Nat → Nat → Nat → Nat × Nat) (n mc : Nat)
    (s : RunState n) (i : Fin n) :
    (i ∉ s.act ∧ step body n mc s i = s) ∨
    (i ∈ s.act ∧ (body n i.val s.val).2 < mc ∧
      step body n mc s i = ⟨(body n i.val s.val).1, s.act⟩) ∨
    (i ∈ s.act ∧ ¬ (body n i.val s.val).2 < mc ∧
      step body n mc s i = ⟨(body n i.val s.val).1, s.act.erase i⟩) := by
  by_cases h1 : i ∈ s.act
  · by_cases h2 : (body n i.val s.val).2 < mc
    · exact Or.inr (Or.inl ⟨h1, h2, by simp [step, h1, h2]⟩)
    · exact Or.inr (Or.inr ⟨h1, h2, by simp [step, h1, h2]⟩)
  · exact Or.inl ⟨h1, by simp [step, h1]⟩

theorem step_val_ge (n mc : Nat) (s : RunState n) (i : Fin n) :
    s.val ≤ (step ResourceAtomicSpin.inc n mc s i).val := by
  rcases step_cases ResourceAtomicSpin.inc n mc s i with
    ⟨_, he⟩ | ⟨_, _, he⟩ | ⟨_, _, he⟩ <;> rw [he] <;>
    exact spin_inc_val_ge n i.val s.val

theorem step_val_le (n mc : Nat) (s : RunState n) (i : Fin n) :
    (step ResourceAtomicSpin.inc n mc s i).val ≤ s.val + 1 := by
  rcases step_cases ResourceAtomicSpin.inc n mc s i with
    ⟨_, he⟩ | ⟨_, _, he⟩ | ⟨_, _, he⟩ <;> rw [he]
  · exact Nat.le_succ _
  · exact spin_inc_val_le n i.val s.val
  · exact spin_inc_val_le n i.val s.val

theorem step_act_subset (body : Nat → Nat → Nat → Nat × Nat) (n mc : Nat)
    (s : RunState n) (i : Fin n) : (step body n mc s i).act ⊆ s.act := by
  rcases step_cases body n mc s i with
    ⟨_, he⟩ | ⟨_, _, he⟩ | ⟨_, _, he⟩ <;> rw [he] <;>
    first
    | exact Finset.Subset.refl _
    | exact Finset.erase_subset _ _

theorem runTo_val_mono (n mc : Nat) (σ : ℕ → Fin n) {m1 m2 : ℕ} (h : m1 ≤ m2) :
    (runTo ResourceAtomicSpin.inc n mc σ m1).val ≤
      (runTo ResourceAtomicSpin.inc n mc σ m2).val := by
  induction m2 with
  | zero => simp_all
  | succ m ih =>
    rcases Nat.lt_or_ge m1 (m + 1) with hlt | hge
    · exact Nat.le_trans (ih (Nat.lt_succ_iff.mp hlt)) (step_val_ge n mc _ _)
    · have : m1 = m + 1 := Nat.le_antisymm h hge
      subst this
      exact Nat.le_refl _

theorem runTo_act_anti (n mc : Nat) (σ : ℕ → Fin n) {m1 m2 : ℕ} (h : m1 ≤ m2)
    {j : Fin n} (hj : j ∉ (runTo ResourceAtomicSpin.inc n mc σ m1).act) :
    j ∉ (runTo ResourceAtomicSpin.inc n mc σ m2).act := by
  induction m2 with
  | zero =>
    have : m1 = 0 := Nat.le_zero.mp h
    subst this
    exact hj
  | succ m ih =>
    rcases Nat.lt_or_ge m1 (m + 1) with hlt | hge
    · intro hmem
      exact ih (Nat.lt_succ_iff.mp hlt) (step_act_subset _ n mc _ _ hmem)
    · have : m1 = m + 1 := Nat.le_antisymm h hge
      subst this
      exact hj

/-- A worker that has left its loop only did so after seeing a returned copy
that had reached `max_count`; by monotonicity the counter still dominates it. -/
theorem runTo_done_imp_target (n mc : Nat) (σ : ℕ → Fin n) (m : ℕ) :
    ∀ j : Fin n, j ∉ (runTo ResourceAtomicSpin.inc n mc σ m).act →
      mc ≤ (runTo ResourceAtomicSpin.inc n mc σ m).val := by
  induction m with
  | zero =>
    intro j hj
    exact absurd (Finset.mem_univ j) hj
  | succ m ih =>
    intro j hj
    have hj' : j ∉ (step ResourceAtomicSpin.inc n mc
        (runTo ResourceAtomicSpin.inc n mc σ m) (σ m)).act := hj
    show mc ≤ (step ResourceAtomicSpin.inc n mc
        (runTo ResourceAtomicSpin.inc n mc σ m) (σ m)).val
    rcases step_cases ResourceAtomicSpin.inc n mc
        (runTo ResourceAtomicSpin.inc n mc σ m) (σ m) with
      ⟨_, he⟩ | ⟨_, _, he⟩ | ⟨_, h2, he⟩ <;> rw [he] at hj' ⊢
    · exact ih j hj'
    · exact Nat.le_trans (ih j hj') (spin_inc_val_ge _ _ _)
    · rw [spin_inc_fst_eq_snd] at h2
      exact Nat.le_of_not_lt h2

theorem runList_inv (body : Nat → Nat → Nat → Nat × Nat) (n mc : Nat)
    (P : RunState n → Prop)
    (hstep : ∀ s i, P s → P (step body n mc s i)) :
    ∀ (l : List (Fin n)) (s : RunState n), P s → P (runList body n mc s l) := by
  intro l
  induction l with
  | nil => exact fun s hs => hs
  | cons a t ih => exact fun s hs => ih _ (hstep s a hs)

/-- C8: a single call to any variant's protected region leaves the counter
unchanged or increments it by exactly 1, and along any schedule the counter
sampled at two points in time `m1 ≤ m2` is non-decreasing, in all three
variants. -/
theorem value_monotone (n mc : Nat) (s : RunState n) (i : Fin n)
    (σ : ℕ → Fin n) (m1 m2 : ℕ) (h : m1 ≤ m2) :
    ((step ResourceAtomicSpin.inc n mc s i).val = s.val ∨
      (step ResourceAtomicSpin.inc n mc s i).val = s.val + 1) ∧
    ((step ResourceAtomicFlag.inc n mc s i).val = s.val ∨
      (step ResourceAtomicFlag.inc n mc s i).val = s.val + 1) ∧
    ((step ResourceMutex.inc n mc s i).val = s.val ∨
      (step ResourceMutex.inc n mc s i).val = s.val + 1) ∧
    (runTo ResourceAtomicSpin.inc n mc σ m1).val ≤
      (runTo ResourceAtomicSpin.inc n mc σ m2).val ∧
    (runTo ResourceAtomicFlag.inc n mc σ m1).val ≤
      (runTo ResourceAtomicFlag.inc n mc σ m2).val ∧
    (runTo ResourceMutex.inc n mc σ m1).val ≤
      (runTo ResourceMutex.inc n mc σ m2).val := by
  have hstep : (step ResourceAtomicSpin.inc n mc s i).val = s.val ∨
      (step ResourceAtomicSpin.inc n mc s i).val = s.val + 1 := by
    have h1 := step_val_ge n mc s i
    have h2 := step_val_le n mc s i
    omega
  have hmono := runTo_val_mono n mc σ h
  rw [flag_inc_eq_spin_inc, mutex_inc_eq_spin_inc]
  exact ⟨hstep, hstep, hstep, hmono, hmono, hmono⟩

theorem value_monotone_witness :
    (step ResourceAtomicSpin.inc 2 1 (initState 2) 0).val = (initState 2).val ∨
    (step ResourceAtomicSpin.inc 2 1 (initState 2) 0).val = (initState 2).val + 1 :=
  (value_monotone 2 1 (initState 2) 0 (fun _ => 0) 0 1 (Nat.le_succ 0)).1

/-- C10: in any run of any variant, the final counter value never exceeds
`max_count + max_threads`: each of the `max_threads` workers performs at most
one increment once the counter has reached the target, because that call
returns a value at least the target and the worker's loop then exits.  The
invariant is `val + |still-looping workers| ≤ max_count + max_threads`. -/
theorem final_value_bounded (n mc : Nat) (hn : 0 < n) (l : List (Fin n)) :
    (runList ResourceAtomicSpin.inc n mc (initState n) l).val ≤ mc + n ∧
    (runList ResourceAtomicFlag.inc n mc (initState n) l).val ≤ mc + n ∧
    (runList ResourceMutex.inc n mc (initState n) l).val ≤ mc + n := by
  have key : (runList ResourceAtomicSpin.inc n mc (initState n) l).val +
      (runList ResourceAtomicSpin.inc n mc (initState n) l).act.card ≤ mc + n := by
    refine runList_inv ResourceAtomicSpin.inc n mc
      (fun s => s.val + s.act.card ≤ mc + n) ?_ l (initState n) ?_
    · intro s i hs
      rcases step_cases ResourceAtomicSpin.inc n mc s i with
        ⟨_, he⟩ | ⟨h1, h2, he⟩ | ⟨h1, h2, he⟩ <;> rw [he]
      · exact hs
      · have hv : (ResourceAtomicSpin.inc n i.val s.val).1 < mc := by
          rw [← spin_inc_fst_eq_snd]; exact h2
        have hcard : s.act.card ≤ n := by
          have := Finset.card_le_univ s.act
          simpa using this
        simp only
        omega
      · have hv := spin_inc_val_le n i.val s.val
        have hcard : (s.act.erase i).card = s.act.card - 1 :=
          Finset.card_erase_of_mem h1
        have hpos : 0 < s.act.card := Finset.card_pos.mpr ⟨i, h1⟩
        simp only [hcard]
        omega
    · have : (Finset.univ : Finset (Fin n)).card = n := by simp
      simp [initState, this]
  have hflag := flag_inc_eq_spin_inc
  have hmut := mutex_inc_eq_spin_inc
  rw [hflag, hmut]
  omega

theorem final_value_bounded_witness :
    (runList ResourceAtomicSpin.inc 1 0 (initState 1) []).val ≤ 0 + 1 :=
  (final_value_bounded 1 0 Nat.zero_lt_one []).1

/-- C7: a worker still in its loop exits the loop on a call exactly when the
returned copy fails `ret < max_count` — never earlier, and the check happens
on every call; a worker whose loop has exited never runs again (its calls
leave the state unchanged and it stays exited), in all three variants. -/
theorem worker_exit (n mc : Nat) (s : RunState n) (i j : Fin n)
    (hi : i ∈ s.act) (hj : j ∉ s.act) :
    ((i ∈ (step ResourceAtomicSpin.inc n mc s i).act ↔
        (ResourceAtomicSpin.inc n i.val s.val).2 < mc) ∧
      step ResourceAtomicSpin.inc n mc s j = s ∧
      j ∉ (step ResourceAtomicSpin.inc n mc s i).act) ∧
    ((i ∈ (step ResourceAtomicFlag.inc n mc s i).act ↔
        (ResourceAtomicFlag.inc n i.val s.val).2 < mc) ∧
      step ResourceAtomicFlag.inc n mc s j = s ∧
      j ∉ (step ResourceAtomicFlag.inc n mc s i).act) ∧
    ((i ∈ (step ResourceMutex.inc n mc s i).act ↔
        (ResourceMutex.inc n i.val s.val).2 < mc) ∧
      step ResourceMutex.inc n mc s j = s ∧
      j ∉ (step ResourceMutex.inc n mc s i).act) := by
  have H : (i ∈ (step ResourceAtomicSpin.inc n mc s i).act ↔
        (ResourceAtomicSpin.inc n i.val s.val).2 < mc) ∧
      step ResourceAtomicSpin.inc n mc s j = s ∧
      j ∉ (step ResourceAtomicSpin.inc n mc s i).act := by
    refine ⟨?_, ?_, fun hm => hj (step_act_subset _ n mc s i hm)⟩
    · rcases step_cases ResourceAtomicSpin.inc n mc s i with
        ⟨h1, _⟩ | ⟨_, h2, he⟩ | ⟨_, h2, he⟩
      · exact absurd hi h1
      · rw [he]
        exact ⟨fun _ => h2, fun _ => hi⟩
      · rw [he]
        constructor
        · intro hmem
          exact absurd (Finset.mem_erase.mp hmem).1 (by simp)
        · intro hlt
          exact absurd hlt h2
    · rcases step_cases ResourceAtomicSpin.inc n mc s j with
        ⟨_, he⟩ | ⟨h1, _, _⟩ | ⟨h1, _, _⟩
      · exact he
      · exact absurd h1 hj
      · exact absurd h1 hj
  exact ⟨H, by rw [flag_inc_eq_spin_inc]; exact H,
    by rw [mutex_inc_eq_spin_inc]; exact H⟩

theorem worker_exit_witness :
    (0 : Fin 2) ∈
        (step ResourceAtomicSpin.inc 2 5 ⟨3, {0}⟩ (0 : Fin 2)).act ↔
      (ResourceAtomicSpin.inc 2 0 3).2 < 5 :=
  (worker_exit 2 5 ⟨3, {0}⟩ 0 1 (by decide) (by decide)).1.1

/-- C5 counterexample: with `totalThreads = 3` and `targetCount = 1`, a run of
the CAS-spin variant under the call schedule worker 0, worker 1, worker 2
completes with final counter 3, while a run of the atomic-flag variant under
the schedule worker 0, worker 2, worker 1 completes with final counter 2: the
final value is not determined by the inputs, so two variants' runs on
identical inputs can end with different values. -/
theorem variants_final_value_differs :
    (runList ResourceAtomicSpin.inc 3 1 (initState 3) [0, 1, 2]).act = ∅ ∧
    (runList ResourceAtomicSpin.inc 3 1 (initState 3) [0, 1, 2]).val = 3 ∧
    (runList ResourceAtomicFlag.inc 3 1 (initState 3) [0, 2, 1]).act = ∅ ∧
    (runList ResourceAtomicFlag.inc 3 1 (initState 3) [0, 2, 1]).val = 2 := by
  decide

/-- C5 amended: for the same inputs AND the same schedule of calls, the three
variants reach identical run states (in particular the same final counter
value); the variants never differ from one another, but the final value does
depend on the schedule, not on the inputs alone. -/
theorem variants_agree_per_schedule (n mc : Nat) (s : RunState n)
    (l : List (Fin n)) :
    runList ResourceAtomicFlag.inc n mc s l =
      runList ResourceAtomicSpin.inc n mc s l ∧
    runList ResourceMutex.inc n mc s l =
      runList ResourceAtomicSpin.inc n mc s l :=
  ⟨rfl, rfl⟩

theorem variants_agree_per_schedule_witness :
    runList ResourceAtomicFlag.inc 3 1 (initState 3) [0, 1, 2] =
      runList ResourceAtomicSpin.inc 3 1 (initState 3) [0, 1, 2] ∧
    runList ResourceMutex.inc 3 1 (initState 3) [0, 1, 2] =
      runList ResourceAtomicSpin.inc 3 1 (initState 3) [0, 1, 2] :=
  variants_agree_per_schedule 3 1 (initState 3) [0, 1, 2]

set_option maxRecDepth 4000 in
/-- C6 counterexample: with `totalThreads = 4` and `targetCount = 100`, the
round-robin schedule gives a completed run (all workers' loops exited) whose
final counter value is 103, not 100: after worker 3's increment reaches 100,
workers 0, 1 and 2 each make one more call, and each of those calls finds
`val % 4` equal to its index, so each increments once more. -/
theorem scenario_4_100_final_103 :
    (runList ResourceAtomicSpin.inc 4 100 (initState 4) sched103).act = ∅ ∧
    (runList ResourceAtomicSpin.inc 4 100 (initState 4) sched103).val = 103 := by
  decide

theorem scenario_inv_lower :
    ∀ l : List (Fin 4),
      (0 : Fin 4) ∉ (runList ResourceAtomicSpin.inc 4 100 (initState 4) l).act →
        101 ≤ (runList ResourceAtomicSpin.inc 4 100 (initState 4) l).val := by
  intro l
  refine runList_inv ResourceAtomicSpin.inc 4 100
    (fun s => (0 : Fin 4) ∉ s.act → 101 ≤ s.val) ?_ l (initState 4) ?_
  · intro s i hs
    rcases step_cases ResourceAtomicSpin.inc 4 100 s i with
      ⟨_, he⟩ | ⟨h1, h2, he⟩ | ⟨h1, h2, he⟩ <;> rw [he] <;> intro h0
    · exact hs h0
    · exact Nat.le_trans (hs h0) (spin_inc_val_ge 4 i.val s.val)
    · by_cases hi0 : (0 : Fin 4) = i
      · have hival : i.val = 0 := by rw [← hi0]; rfl
        rw [spin_inc_fst_eq_snd] at h2
        rcases spin_inc_cases 4 i.val s.val with ⟨hm, heq⟩ | ⟨hm, heq⟩ <;>
          rw [heq] at h2 ⊢ <;> rw [hival] at hm <;> dsimp only at h2 ⊢ <;> omega
      · have h0act : (0 : Fin 4) ∉ s.act := fun hmem =>
          h0 (Finset.mem_erase.mpr ⟨hi0, hmem⟩)
        exact Nat.le_trans (hs h0act) (spin_inc_val_ge 4 i.val s.val)
  · intro h0
    exact absurd (Finset.mem_univ (0 : Fin 4)) h0

theorem scenario_inv_upper :
    ∀ l : List (Fin 4),
      (runList ResourceAtomicSpin.inc 4 100 (initState 4) l).val ≤ 103 ∧
      (100 ≤ (runList ResourceAtomicSpin.inc 4 100 (initState 4) l).val →
        (3 : Fin 4) ∉ (runList ResourceAtomicSpin.inc 4 100 (initState 4) l).act) := by
  intro l
  refine runList_inv ResourceAtomicSpin.inc 4 100
    (fun s => s.val ≤ 103 ∧ (100 ≤ s.val → (3 : Fin 4) ∉ s.act)) ?_ l
    (initState 4) ?_
  · intro s i hs
    rcases step_cases ResourceAtomicSpin.inc 4 100 s i with
      ⟨_, he⟩ | ⟨h1, h2, he⟩ | ⟨h1, h2, he⟩ <;> rw [he]
    · exact hs
    · rw [spin_inc_fst_eq_snd] at h2
      refine ⟨by dsimp only; omega, ?_⟩
      dsimp only
      intro hge
      omega
    · rw [spin_inc_fst_eq_snd] at h2
      have hup : (ResourceAtomicSpin.inc 4 i.val s.val).1 ≤ 103 := by
        rcases spin_inc_cases 4 i.val s.val with ⟨hm, heq⟩ | ⟨hm, heq⟩ <;>
          rw [heq]
        · by_cases hc : s.val = 103
          · have hival : i.val = 3 := by omega
            have hi3 : i = (3 : Fin 4) := Fin.ext hival
            have : (3 : Fin 4) ∉ s.act := hs.2 (by omega)
            rw [hi3] at h1
            exact absurd h1 this
          · have := hs.1
            omega
        · exact hs.1
      refine ⟨by dsimp only; exact hup, ?_⟩
      dsimp only
      intro hge
      by_cases hi3 : i = (3 : Fin 4)
      · rw [hi3]
        exact Finset.not_mem_erase _ _
      · intro hmem
        have hmem' : (3 : Fin 4) ∈ s.act := (Finset.mem_erase.mp hmem).2
        by_cases h100 : 100 ≤ s.val
        · exact absurd hmem' (hs.2 h100)
        · rcases spin_inc_cases 4 i.val s.val with ⟨hm, heq⟩ | ⟨hm, heq⟩ <;>
            rw [heq] at hge <;> dsimp only at hge
          · have hival : i.val = 3 := by omega
            exact hi3 (Fin.ext hival)
          · omega
  · exact ⟨by simp [initState], fun h => absurd h (by simp [initState])⟩

/-- C6 amended: with `totalThreads = 4` and `targetCount = 100`, every
completed run (all four workers' loops exited) of any of the three variants
ends with a final counter value between 101 and 103 inclusive — never
exactly 100, because worker 0 always finds `val % 4 = 0` on its last call
once the counter has reached 100 and so performs a 26th increment — and the
flag and mutex variants reach the same state as the CAS-spin variant on the
same schedule. -/
theorem scenario_4_100_bounds (l : List (Fin 4))
    (hdone : (runList ResourceAtomicSpin.inc 4 100 (initState 4) l).act = ∅) :
    101 ≤ (runList ResourceAtomicSpin.inc 4 100 (initState 4) l).val ∧
    (runList ResourceAtomicSpin.inc 4 100 (initState 4) l).val ≤ 103 ∧
    runList ResourceAtomicFlag.inc 4 100 (initState 4) l =
      runList ResourceAtomicSpin.inc 4 100 (initState 4) l ∧
    runList ResourceMutex.inc 4 100 (initState 4) l =
      runList ResourceAtomicSpin.inc 4 100 (initState 4) l := by
  have h0 : (0 : Fin 4) ∉ (runList ResourceAtomicSpin.inc 4 100 (initState 4) l).act := by
    rw [hdone]
    exact Finset.not_mem_empty _
  exact ⟨scenario_inv_lower l h0, (scenario_inv_upper l).1, rfl, rfl⟩

set_option maxRecDepth 4000 in
theorem scenario_4_100_bounds_witness :
    101 ≤ (runList ResourceAtomicSpin.inc 4 100 (initState 4) sched103).val ∧
    (runList ResourceAtomicSpin.inc 4 100 (initState 4) sched103).val ≤ 103 := by
  have h := scenario_4_100_bounds sched103 (by decide)
  exact ⟨h.1, h.2.1⟩

/-- While the counter is below the target, scheduling the worker whose index
is `val mod max_threads` (which is still looping, since no worker exits while
the counter is below the target) increments the counter. -/
theorem runTo_progress (n mc : Nat) (σ : ℕ → Fin n) (m : ℕ)
    (hv : (runTo ResourceAtomicSpin.inc n mc σ m).val < mc)
    (ho : (σ m).val = (runTo ResourceAtomicSpin.inc n mc σ m).val % n) :
    (runTo ResourceAtomicSpin.inc n mc σ (m + 1)).val =
      (runTo ResourceAtomicSpin.inc n mc σ m).val + 1 := by
  have hact : σ m ∈ (runTo ResourceAtomicSpin.inc n mc σ m).act := by
    by_contra hni
    exact absurd (runTo_done_imp_target n mc σ m (σ m) hni) (Nat.not_le.mpr hv)
  show (step ResourceAtomicSpin.inc n mc
      (runTo ResourceAtomicSpin.inc n mc σ m) (σ m)).val = _
  rcases step_cases ResourceAtomicSpin.inc n mc
      (runTo ResourceAtomicSpin.inc n mc σ m) (σ m) with
    ⟨h1, _⟩ | ⟨_, _, he⟩ | ⟨_, _, he⟩ <;> [skip; rw [he]; rw [he]]
  · exact absurd hact h1
  all_goals
    rcases spin_inc_cases n (σ m).val
        (runTo ResourceAtomicSpin.inc n mc σ m).val with ⟨_, heq⟩ | ⟨hm, _⟩
  · rw [heq]
  · exact absurd ho.symm hm
  · rw [heq]
  · exact absurd ho.symm hm

/-- Under a fair schedule, a counter still below the target eventually
strictly increases. -/
theorem runTo_val_increases (n mc : Nat) (hn : 0 < n) (σ : ℕ → Fin n)
    (hf : Fair σ) (m : ℕ)
    (hv : (runTo ResourceAtomicSpin.inc n mc σ m).val < mc) :
    ∃ k, m < k ∧ (runTo ResourceAtomicSpin.inc n mc σ m).val <
      (runTo ResourceAtomicSpin.inc n mc σ k).val := by
  obtain ⟨k, hk, hσ⟩ :=
    hf ⟨(runTo ResourceAtomicSpin.inc n mc σ m).val % n, Nat.mod_lt _ hn⟩ m
  by_cases hgt : (runTo ResourceAtomicSpin.inc n mc σ m).val <
      (runTo ResourceAtomicSpin.inc n mc σ k).val
  · refine ⟨k, ?_, hgt⟩
    rcases Nat.lt_or_ge m k with h | h
    · exact h
    · have : k = m := Nat.le_antisymm h hk
      subst this
      exact absurd hgt (Nat.lt_irrefl _)
  · have heq : (runTo ResourceAtomicSpin.inc n mc σ k).val =
        (runTo ResourceAtomicSpin.inc n mc σ m).val :=
      Nat.le_antisymm (Nat.not_lt.mp hgt) (runTo_val_mono n mc σ hk)
    have hσv : (σ k).val = (runTo ResourceAtomicSpin.inc n mc σ k).val % n := by
      rw [heq, hσ]
    have hinc := runTo_progress n mc σ k (heq ▸ hv) hσv
    exact ⟨k + 1, Nat.lt_succ_of_le hk, by omega⟩

/-- Under a fair schedule the counter eventually reaches the target. -/
theorem runTo_eventually_target (n mc : Nat) (hn : 0 < n) (σ : ℕ → Fin n)
    (hf : Fair σ) :
    ∃ k, mc ≤ (runTo ResourceAtomicSpin.inc n mc σ k).val := by
  suffices h : ∀ d m, mc ≤ (runTo ResourceAtomicSpin.inc n mc σ m).val + d →
      ∃ k, m ≤ k ∧ mc ≤ (runTo ResourceAtomicSpin.inc n mc σ k).val by
    obtain ⟨k, _, hk⟩ := h mc 0 (Nat.le_add_left mc _)
    exact ⟨k, hk⟩
  intro d
  induction d with
  | zero =>
    intro m h
    exact ⟨m, Nat.le_refl m, by omega⟩
  | succ d ih =>
    intro m h
    by_cases hv : mc ≤ (runTo ResourceAtomicSpin.inc n mc σ m).val
    · exact ⟨m, Nat.le_refl m, hv⟩
    · obtain ⟨k, hk, hlt⟩ :=
        runTo_val_increases n mc hn σ hf m (Nat.not_le.mp hv)
      obtain ⟨k2, hk2, h2⟩ := ih k (by omega)
      exact ⟨k2, Nat.le_trans (Nat.le_of_lt hk) hk2, h2⟩

/-- Once the counter has reached the target, a scheduled worker's call
returns a value at least the target, so its loop exits. -/
theorem runTo_worker_exits (n mc : Nat) (σ : ℕ → Fin n) (m : ℕ)
    (hv : mc ≤ (runTo ResourceAtomicSpin.inc n mc σ m).val) :
    σ m ∉ (runTo ResourceAtomicSpin.inc n mc σ (m + 1)).act := by
  show σ m ∉ (step ResourceAtomicSpin.inc n mc
      (runTo ResourceAtomicSpin.inc n mc σ m) (σ m)).act
  rcases step_cases ResourceAtomicSpin.inc n mc
      (runTo ResourceAtomicSpin.inc n mc σ m) (σ m) with
    ⟨h1, he⟩ | ⟨_, h2, _⟩ | ⟨_, _, he⟩
  · rw [he]
    exact h1
  · rw [spin_inc_fst_eq_snd] at h2
    have := spin_inc_val_ge n (σ m).val (runTo ResourceAtomicSpin.inc n mc σ m).val
    omega
  · rw [he]
    exact Finset.not_mem_erase _ _

/-- Under a fair schedule, once the counter has reached the target, every
worker in any given list eventually has its loop exited. -/
theorem runTo_all_exit (n mc : Nat) (σ : ℕ → Fin n) (hf : Fair σ) (M : ℕ)
    (hv : mc ≤ (runTo ResourceAtomicSpin.inc n mc σ M).val) :
    ∀ l : List (Fin n), ∃ m, M ≤ m ∧
      ∀ j ∈ l, j ∉ (runTo ResourceAtomicSpin.inc n mc σ m).act := by
  intro l
  induction l with
  | nil => exact ⟨M, Nat.le_refl M, by simp⟩
  | cons a t ih =>
    obtain ⟨m, hm, ht⟩ := ih
    obtain ⟨k, hk, hσ⟩ := hf a m
    refine ⟨k + 1, by omega, ?_⟩
    intro j hjmem
    rcases List.mem_cons.mp hjmem with rfl | hjt
    · rw [← hσ]
      exact runTo_worker_exits n mc σ k
        (Nat.le_trans hv (runTo_val_mono n mc σ (Nat.le_trans hm hk)))
    · exact runTo_act_anti n mc σ (by omega : m ≤ k + 1) (ht j hjt)

/-- C4: for every `max_threads > 0` and `max_count`, a run of `execSync` with
any of the three variants terminates under any fair schedule — after finitely
many calls every worker's loop has exited (and the joins in `execSync` then
all return) — and the final counter value is at least `max_count`.  The flag
and mutex runs coincide with the CAS-spin run on the same schedule. -/
theorem execSync_terminates (n mc : Nat) (hn : 0 < n) (σ : ℕ → Fin n)
    (hf : Fair σ) :
    ∃ m, (runTo ResourceAtomicSpin.inc n mc σ m).act = ∅ ∧
      mc ≤ (runTo ResourceAtomicSpin.inc n mc σ m).val ∧
      runTo ResourceAtomicFlag.inc n mc σ m =
        runTo ResourceAtomicSpin.inc n mc σ m ∧
      runTo ResourceMutex.inc n mc σ m =
        runTo ResourceAtomicSpin.inc n mc σ m := by
  obtain ⟨M, hM⟩ := runTo_eventually_target n mc hn σ hf
  obtain ⟨m, hm, hall⟩ := runTo_all_exit n mc σ hf M hM (List.finRange n)
  refine ⟨m, ?_, Nat.le_trans hM (runTo_val_mono n mc σ hm), rfl, rfl⟩
  exact Finset.eq_empty_iff_forall_not_mem.mpr
    fun j => hall j (List.mem_finRange j)

theorem execSync_terminates_witness :
    ∃ m, (runTo ResourceAtomicSpin.inc 1 2 (fun _ => 0) m).act = ∅ ∧
      2 ≤ (runTo ResourceAtomicSpin.inc 1 2 (fun _ => 0) m).val ∧
      runTo ResourceAtomicFlag.inc 1 2 (fun _ => 0) m =
        runTo ResourceAtomicSpin.inc 1 2 (fun _ => 0) m ∧
      runTo ResourceMutex.inc 1 2 (fun _ => 0) m =
        runTo ResourceAtomicSpin.inc 1 2 (fun _ => 0) m :=
  execSync_terminates 1 2 Nat.one_pos (fun _ => 0)
    (fun i m => ⟨m, Nat.le_refl m, Subsingleton.elim _ _⟩)

end LsTest
